import Mathlib

/-!
Verification of the Hyperliquid OHLC puller against its specification.

The development shallowly embeds the data model and the pure core of the
two scripts (`hyperliquid_puller.py`, the 30-minute variant, and
`pull_daily_ohlc.py`, the daily variant): candle series, the
dedup-and-sort merge (`merge_and_save_data`), the staleness classifier
(`should_rebuild_data`), the chunked fetch loop (`fetch_candle_data`),
the availability filter (`get_available_symbols` / `is_symbol_available`),
and the per-asset update outcome (`update_single_asset`).

Timestamps are modelled as natural numbers in epoch milliseconds
(`pandas` candle timestamps come from epoch-ms integers; `timedelta.days`
is floor division of the duration by one day).  Price and volume fields
are carried opaquely as integers: no claim computes on them, the claims
only concern timestamps and row identity.  Provider interaction is
modelled by explicit result values (`ChunkResult`, `MetaResult`) so that
transport errors, empty responses and data responses are distinguished
exactly as the Python code distinguishes them.
-/

namespace HLPuller

/-- One OHLCV row as built in `fetch_candle_data` (hyperliquid_puller.py,
lines 309-318): a timestamp (epoch milliseconds, the candle's `T` end
time) plus the open/high/low/close/volume payload.  The payload fields
are opaque to every claim. -/
structure Candle where
  timestamp : Nat
  open_price : Int
  high_price : Int
  low_price : Int
  close_price : Int
  volume : Int
deriving DecidableEq, Repr

/-- Comparison of candles by timestamp, the sort key of
`sort_values('timestamp')`. -/
def tsLE (a b : Candle) : Prop := a.timestamp ≤ b.timestamp

/-- Strict timestamp order between candles. -/
def tsLT (a b : Candle) : Prop := a.timestamp < b.timestamp

instance : DecidableRel tsLE := fun a b => Nat.decLe a.timestamp b.timestamp

instance : DecidableRel tsLT := fun a b => Nat.decLt a.timestamp b.timestamp

instance : IsTotal Candle tsLE := ⟨fun a b => Nat.le_total a.timestamp b.timestamp⟩

instance : IsTrans Candle tsLE := ⟨fun _ _ _ h h' => Nat.le_trans h h'⟩

instance : IsTrans Candle tsLT := ⟨fun _ _ _ h h' => Nat.lt_trans h h'⟩

instance : IsAntisymm Candle tsLT := ⟨fun _ _ h h' => absurd h' (Nat.lt_asymm h)⟩

/-- `df['timestamp']` contains `t`:  whether some row of `l` has
timestamp `t`. -/
def hasTimestamp (l : List Candle) (t : Nat) : Bool :=
  l.any (fun c => c.timestamp = t)

/-- `df.drop_duplicates(subset=['timestamp'], keep='last')`
(hyperliquid_puller.py lines 330 and 361): a row is kept exactly when no
later row carries the same timestamp; kept rows stay in their original
order. -/
def dropDuplicatesKeepLast : List Candle → List Candle
  | [] => []
  | c :: rest =>
    if hasTimestamp rest c.timestamp then dropDuplicatesKeepLast rest
    else c :: dropDuplicatesKeepLast rest

/-- `df.sort_values('timestamp')` (lines 331 and 362).  The source sorts
with pandas' default algorithm; every call site sorts a frame whose
timestamps have just been deduplicated, so the ordering of equal keys is
irrelevant and insertion sort is a faithful model. -/
def sortByTimestamp (l : List Candle) : List Candle :=
  List.insertionSort tsLE l

/-- `HyperliquidOHLCPuller.merge_and_save_data` (lines 347-368), with
file I/O factored out: the persisted series it writes, as a function of
the (already loaded) existing series, the new batch and the
`replace_existing` flag.  `none` models `load_existing_data` returning
`None`. -/
def merge_and_save_data (existing : Option (List Candle))
    (new_data : List Candle) (replace_existing : Bool) : List Candle :=
  if replace_existing then
    new_data
  else
    match existing with
    | some existing_data =>
        sortByTimestamp
          (dropDuplicatesKeepLast (existing_data ++ new_data))
    | none => new_data

/-- The dedup-and-sort post-processing that `fetch_candle_data` applies
to every successfully fetched batch (lines 328-331). -/
def processFetchedCandles (l : List Candle) : List Candle :=
  sortByTimestamp (dropDuplicatesKeepLast l)

/-- The series `l` has pairwise distinct timestamps. -/
def tsNodup (l : List Candle) : Prop :=
  (l.map Candle.timestamp).Nodup

/-- The last row of `l` carrying timestamp `t`, if any — the row that
`drop_duplicates(keep='last')` retains for timestamp `t`. -/
def lastOcc : List Candle → Nat → Option Candle
  | [], _ => none
  | c :: rest, t =>
    match lastOcc rest t with
    | some d => some d
    | none => if c.timestamp = t then some c else none

/-! ### Basic facts about `hasTimestamp`, `lastOcc` and the dedup pass -/

theorem hasTimestamp_iff {l : List Candle} {t : Nat} :
    hasTimestamp l t = true ↔ ∃ c ∈ l, c.timestamp = t := by
  simp [hasTimestamp]

theorem hasTimestamp_append {l₁ l₂ : List Candle} {t : Nat} :
    hasTimestamp (l₁ ++ l₂) t = (hasTimestamp l₁ t || hasTimestamp l₂ t) := by
  simp [hasTimestamp, List.any_append]

theorem lastOcc_eq_none_iff {l : List Candle} {t : Nat} :
    lastOcc l t = none ↔ hasTimestamp l t = false := by
  induction l with
  | nil => simp [lastOcc, hasTimestamp]
  | cons c rest ih =>
    simp only [lastOcc, hasTimestamp, List.any_cons] at ih ⊢
    cases h : lastOcc rest t with
    | some d =>
      rw [h] at ih
      constructor
      · intro hc
        exact absurd hc (by simp)
      · intro hc
        rw [Bool.or_eq_false_iff] at hc
        exact absurd (ih.mpr hc.2) (by simp)
    | none =>
      rw [h] at ih
      have hrest : rest.any (fun c => decide (c.timestamp = t)) = false :=
        ih.mp rfl
      by_cases hc : c.timestamp = t <;> simp [hc, hrest]

theorem lastOcc_mem_ts {l : List Candle} {t : Nat} {c : Candle}
    (h : lastOcc l t = some c) : c ∈ l ∧ c.timestamp = t := by
  induction l with
  | nil => simp [lastOcc] at h
  | cons c' rest ih =>
    simp only [lastOcc] at h
    cases h' : lastOcc rest t with
    | some d =>
      rw [h'] at h
      obtain ⟨hm, ht⟩ := ih (h' ▸ h)
      exact ⟨List.mem_cons_of_mem _ hm, ht⟩
    | none =>
      rw [h'] at h
      by_cases hc : c'.timestamp = t
      · simp only [hc, if_pos rfl] at h
        cases h
        exact ⟨List.mem_cons_self _ _, hc⟩
      · simp [hc] at h

theorem mem_dropDuplicatesKeepLast_sub {l : List Candle} {c : Candle}
    (h : c ∈ dropDuplicatesKeepLast l) : c ∈ l := by
  induction l with
  | nil => simp [dropDuplicatesKeepLast] at h
  | cons c' rest ih =>
    simp only [dropDuplicatesKeepLast] at h
    by_cases hd : hasTimestamp rest c'.timestamp
    · rw [if_pos hd] at h
      exact List.mem_cons_of_mem _ (ih h)
    · rw [if_neg hd] at h
      rcases List.mem_cons.mp h with h | h
      · exact h ▸ List.mem_cons_self _ _
      · exact List.mem_cons_of_mem _ (ih h)

theorem mem_dropDuplicatesKeepLast_iff {l : List Candle} {c : Candle} :
    c ∈ dropDuplicatesKeepLast l ↔ lastOcc l c.timestamp = some c := by
  induction l with
  | nil => simp [dropDuplicatesKeepLast, lastOcc]
  | cons c' rest ih =>
    simp only [dropDuplicatesKeepLast, lastOcc]
    by_cases hd : hasTimestamp rest c'.timestamp = true
    · rw [if_pos hd]
      cases hro : lastOcc rest c.timestamp with
      | some d =>
        rw [ih, hro]
      | none =>
        rw [ih, hro]
        simp only [reduceCtorEq, false_iff]
        by_cases hts : c'.timestamp = c.timestamp
        · rw [if_pos hts]
          intro hsome
          have hc' : c' = c := Option.some.inj hsome
          subst hc'
          rw [lastOcc_eq_none_iff] at hro
          rw [hts] at hd
          rw [hd] at hro
          exact Bool.noConfusion hro
        · rw [if_neg hts]
          exact fun hsome => Option.noConfusion hsome
    · rw [if_neg hd]
      cases hro : lastOcc rest c.timestamp with
      | some d =>
        rw [List.mem_cons, ih, hro]
        constructor
        · rintro (rfl | h)
          · exfalso
            obtain ⟨hdm, hdts⟩ := lastOcc_mem_ts hro
            have : hasTimestamp rest c.timestamp = true :=
              hasTimestamp_iff.mpr ⟨d, hdm, hdts⟩
            exact hd this
          · exact h
        · exact fun h => Or.inr h
      | none =>
        rw [List.mem_cons, ih, hro]
        by_cases hts : c'.timestamp = c.timestamp
        · rw [if_pos hts]
          simp only [reduceCtorEq, or_false, Option.some.injEq]
          exact ⟨fun h => by rw [h], fun h => by rw [h]⟩
        · rw [if_neg hts]
          simp only [reduceCtorEq, or_false, iff_false]
          exact fun h => hts (by rw [h])

theorem tsNodup_dropDuplicatesKeepLast (l : List Candle) :
    tsNodup (dropDuplicatesKeepLast l) := by
  induction l with
  | nil => simp [dropDuplicatesKeepLast, tsNodup]
  | cons c rest ih =>
    simp only [dropDuplicatesKeepLast]
    by_cases hd : hasTimestamp rest c.timestamp
    · rwa [if_pos hd]
    · rw [if_neg hd]
      simp only [tsNodup, List.map_cons, List.nodup_cons] at ih ⊢
      refine ⟨fun hmem => ?_, ih⟩
      obtain ⟨d, hdmem, hdts⟩ := List.mem_map.mp hmem
      have hdrest : d ∈ rest := mem_dropDuplicatesKeepLast_sub hdmem
      have : hasTimestamp rest c.timestamp = true := by
        rw [hasTimestamp_iff]; exact ⟨d, hdrest, hdts⟩
      simp [this] at hd

theorem dropDuplicatesKeepLast_eq_self {l : List Candle}
    (h : tsNodup l) : dropDuplicatesKeepLast l = l := by
  induction l with
  | nil => rfl
  | cons c rest ih =>
    simp only [tsNodup, List.map_cons, List.nodup_cons] at h
    have hd : hasTimestamp rest c.timestamp = false := by
      rw [Bool.eq_false_iff]
      intro hcontra
      obtain ⟨d, hdm, hdts⟩ := hasTimestamp_iff.mp hcontra
      exact h.1 (List.mem_map.mpr ⟨d, hdm, hdts⟩)
    simp only [dropDuplicatesKeepLast, hd, Bool.false_eq_true, if_false]
    rw [ih h.2]

/-! ### Facts about `sortByTimestamp` and strict sortedness -/

theorem sortByTimestamp_perm (l : List Candle) :
    List.Perm (sortByTimestamp l) l :=
  List.perm_insertionSort tsLE l

theorem mem_sortByTimestamp {l : List Candle} {c : Candle} :
    c ∈ sortByTimestamp l ↔ c ∈ l :=
  (sortByTimestamp_perm l).mem_iff

theorem sorted_sortByTimestamp (l : List Candle) :
    List.Sorted tsLE (sortByTimestamp l) :=
  List.sorted_insertionSort tsLE l

theorem tsNodup_of_perm {l l' : List Candle} (h : List.Perm l l')
    (hn : tsNodup l) : tsNodup l' :=
  (h.map Candle.timestamp).nodup_iff.mp hn

theorem tsNodup_pairwise {l : List Candle} :
    tsNodup l ↔ List.Pairwise (fun a b : Candle => a.timestamp ≠ b.timestamp) l := by
  unfold tsNodup List.Nodup
  exact List.pairwise_map

theorem pairwise_tsLT_of_sorted_nodup {l : List Candle}
    (hs : List.Sorted tsLE l) (hn : tsNodup l) :
    List.Pairwise tsLT l := by
  have hne := tsNodup_pairwise.mp hn
  have := List.Pairwise.and hs hne
  exact this.imp (fun h => Nat.lt_of_le_of_ne h.1 h.2)

theorem tsNodup_of_pairwise_tsLT {l : List Candle}
    (h : List.Pairwise tsLT l) : tsNodup l :=
  tsNodup_pairwise.mpr (h.imp (fun h' => Nat.ne_of_lt h'))

theorem nodup_of_tsNodup {l : List Candle} (h : tsNodup l) : l.Nodup :=
  (tsNodup_pairwise.mp h).imp (fun h' heq => h' (by rw [heq]))

/-- The dedup-then-sort pipeline always yields strictly increasing
timestamps. -/
theorem pairwise_tsLT_processed (l : List Candle) :
    List.Pairwise tsLT (sortByTimestamp (dropDuplicatesKeepLast l)) := by
  refine pairwise_tsLT_of_sorted_nodup (sorted_sortByTimestamp _) ?_
  exact tsNodup_of_perm (sortByTimestamp_perm _).symm
    (tsNodup_dropDuplicatesKeepLast l)

theorem mem_processed_iff {l : List Candle} {c : Candle} :
    c ∈ sortByTimestamp (dropDuplicatesKeepLast l) ↔
      lastOcc l c.timestamp = some c := by
  rw [mem_sortByTimestamp, mem_dropDuplicatesKeepLast_iff]

/-- Two strictly-timestamp-sorted series with the same members are
equal. -/
theorem eq_of_pairwise_tsLT_mem_iff {l₁ l₂ : List Candle}
    (h₁ : List.Pairwise tsLT l₁) (h₂ : List.Pairwise tsLT l₂)
    (hmem : ∀ c, c ∈ l₁ ↔ c ∈ l₂) : l₁ = l₂ := by
  have hp : List.Perm l₁ l₂ :=
    (List.perm_ext_iff_of_nodup
      (nodup_of_tsNodup (tsNodup_of_pairwise_tsLT h₁))
      (nodup_of_tsNodup (tsNodup_of_pairwise_tsLT h₂))).mpr hmem
  exact List.eq_of_perm_of_sorted hp h₁ h₂

/-! ### `lastOcc` under append, and on series with unique timestamps -/

theorem lastOcc_append {l₁ l₂ : List Candle} {t : Nat} :
    lastOcc (l₁ ++ l₂) t =
      match lastOcc l₂ t with
      | some d => some d
      | none => lastOcc l₁ t := by
  induction l₁ with
  | nil =>
    simp only [List.nil_append, lastOcc]
    cases h : lastOcc l₂ t <;> simp [lastOcc]
  | cons c rest ih =>
    simp only [List.cons_append, lastOcc, List.append_eq]
    rw [ih]
    cases h : lastOcc l₂ t with
    | some d => simp
    | none => simp

theorem lastOcc_of_mem_nodup {l : List Candle} {c : Candle}
    (hn : tsNodup l) (hm : c ∈ l) : lastOcc l c.timestamp = some c := by
  induction l with
  | nil => simp at hm
  | cons c' rest ih =>
    simp only [tsNodup, List.map_cons, List.nodup_cons] at hn
    rcases List.mem_cons.mp hm with rfl | hm'
    · have hnone : lastOcc rest c.timestamp = none := by
        rw [lastOcc_eq_none_iff, Bool.eq_false_iff]
        intro hts
        obtain ⟨d, hdm, hdts⟩ := hasTimestamp_iff.mp hts
        exact hn.1 (List.mem_map.mpr ⟨d, hdm, hdts⟩)
      simp [lastOcc, hnone]
    · have := ih (by simpa [tsNodup] using hn.2) hm'
      simp [lastOcc, this]

theorem eq_of_mem_tsNodup {l : List Candle} {c d : Candle} (hn : tsNodup l)
    (hc : c ∈ l) (hd : d ∈ l) (h : c.timestamp = d.timestamp) : c = d :=
  List.inj_on_of_nodup_map hn hc hd h

/-- Dedup-then-sort does not change which row is the last occurrence of
any timestamp. -/
theorem lastOcc_processed (l : List Candle) (t : Nat) :
    lastOcc (sortByTimestamp (dropDuplicatesKeepLast l)) t = lastOcc l t := by
  cases h : lastOcc l t with
  | none =>
    rw [lastOcc_eq_none_iff] at h ⊢
    rw [Bool.eq_false_iff] at h ⊢
    intro hts
    obtain ⟨c, hcm, hct⟩ := hasTimestamp_iff.mp hts
    have hcl : c ∈ l :=
      mem_dropDuplicatesKeepLast_sub (mem_sortByTimestamp.mp hcm)
    exact h (hasTimestamp_iff.mpr ⟨c, hcl, hct⟩)
  | some c =>
    have hts := (lastOcc_mem_ts h).2
    have hmem : c ∈ sortByTimestamp (dropDuplicatesKeepLast l) :=
      mem_processed_iff.mpr (by rw [hts]; exact h)
    have hnd : tsNodup (sortByTimestamp (dropDuplicatesKeepLast l)) :=
      tsNodup_of_perm (sortByTimestamp_perm _).symm
        (tsNodup_dropDuplicatesKeepLast l)
    have hlo := lastOcc_of_mem_nodup hnd hmem
    rw [hts] at hlo
    exact hlo

/-- The non-replace merge against a present existing series is exactly
the dedup-then-sort of the concatenation. -/
theorem merge_concat_eq (S B : List Candle) :
    merge_and_save_data (some S) B false =
      sortByTimestamp (dropDuplicatesKeepLast (S ++ B)) := rfl

/-- `drop_duplicates(keep='last')` on a concatenation: rows of the left
part survive iff they survive dedup of the left part alone and their
timestamp does not reappear on the right; the right part is deduped on
its own. -/
theorem dropDuplicatesKeepLast_append (A B : List Candle) :
    dropDuplicatesKeepLast (A ++ B) =
      (dropDuplicatesKeepLast A).filter
        (fun c => !(hasTimestamp B c.timestamp)) ++
        dropDuplicatesKeepLast B := by
  induction A with
  | nil => simp [dropDuplicatesKeepLast]
  | cons a A' ih =>
    simp only [List.cons_append, dropDuplicatesKeepLast]
    by_cases h1 : hasTimestamp A' a.timestamp = true
    · simp [hasTimestamp_append, h1, ih]
    · by_cases h2 : hasTimestamp B a.timestamp = true
      · simp [hasTimestamp_append, h1, h2, ih]
      · simp [hasTimestamp_append, h1, h2, ih]

theorem dropDuplicatesKeepLast_ne_nil {l : List Candle} (h : l ≠ []) :
    dropDuplicatesKeepLast l ≠ [] := by
  induction l with
  | nil => exact absurd rfl h
  | cons c rest ih =>
    simp only [dropDuplicatesKeepLast]
    by_cases hd : hasTimestamp rest c.timestamp = true
    · rw [if_pos hd]
      have : rest ≠ [] := by
        intro hnil
        rw [hnil] at hd
        simp [hasTimestamp] at hd
      exact ih this
    · rw [if_neg hd]
      exact List.cons_ne_nil _ _

theorem processed_ne_nil {l : List Candle} (h : l ≠ []) :
    sortByTimestamp (dropDuplicatesKeepLast l) ≠ [] := by
  intro hnil
  have hp := sortByTimestamp_perm (dropDuplicatesKeepLast l)
  rw [hnil] at hp
  exact dropDuplicatesKeepLast_ne_nil h hp.symm.eq_nil

/-! ### Claim C1: the non-replace merge is idempotent -/

/-- Claim C1: merge is idempotent.  For every existing series `S` and
fetched batch `B`, merging `B` into `S` with `merge_and_save_data`
(replace not set: concatenate, deduplicate by timestamp keeping last,
sort) and then merging the same `B` into the result yields a series
identical to merging `B` into `S` once. -/
theorem merge_and_save_data_idempotent (S B : List Candle) :
    merge_and_save_data (some (merge_and_save_data (some S) B false)) B false
      = merge_and_save_data (some S) B false := by
  rw [merge_concat_eq, merge_concat_eq]
  apply eq_of_pairwise_tsLT_mem_iff (pairwise_tsLT_processed _)
    (pairwise_tsLT_processed _)
  intro c
  rw [mem_processed_iff, mem_processed_iff]
  rw [lastOcc_append, lastOcc_processed]
  cases h : lastOcc B c.timestamp with
  | none => exact Iff.rfl
  | some d => rw [lastOcc_append, h]

/-! ### Claims C6 and C7: dedup correctness and the sort invariant -/

/-- The replace path of `merge_and_save_data` (lines 350-353) returns
the new batch unchanged. -/
theorem merge_replace_eq (existing : Option (List Candle))
    (new_data : List Candle) :
    merge_and_save_data existing new_data true = new_data := rfl

/-- Claim C6: for any existing series `A` and new batch `B`, each with
internally unique timestamps and sharing exactly `N` timestamps, the
non-replace merge produces exactly `|A| + |B| - N` rows; every row of
`B` is retained, and the retained row for each timestamp of `B` is
exactly `B`'s row. -/
theorem merge_dedup_correct (A B : List Candle) (hA : tsNodup A)
    (hB : tsNodup B) :
    (merge_and_save_data (some A) B false).length =
      A.length + B.length -
        (A.filter (fun c => hasTimestamp B c.timestamp)).length
    ∧ (∀ c ∈ B, c ∈ merge_and_save_data (some A) B false)
    ∧ (∀ c ∈ B, ∀ d ∈ merge_and_save_data (some A) B false,
        d.timestamp = c.timestamp → d = c) := by
  have hkey : dropDuplicatesKeepLast (A ++ B) =
      A.filter (fun c => !(hasTimestamp B c.timestamp)) ++ B := by
    rw [dropDuplicatesKeepLast_append, dropDuplicatesKeepLast_eq_self hA,
      dropDuplicatesKeepLast_eq_self hB]
  have hmemB : ∀ c ∈ B, c ∈ merge_and_save_data (some A) B false := by
    intro c hc
    rw [merge_concat_eq, mem_sortByTimestamp, hkey]
    exact List.mem_append_right _ hc
  refine ⟨?_, hmemB, ?_⟩
  · rw [merge_concat_eq,
      (sortByTimestamp_perm (dropDuplicatesKeepLast (A ++ B))).length_eq,
      hkey, List.length_append]
    have hsplit := List.length_eq_length_filter_add
      (l := A) (fun c => hasTimestamp B c.timestamp)
    omega
  · intro c hc d hd hts
    have hnd : tsNodup (merge_and_save_data (some A) B false) := by
      rw [merge_concat_eq]
      exact tsNodup_of_perm (sortByTimestamp_perm _).symm
        (tsNodup_dropDuplicatesKeepLast _)
    exact eq_of_mem_tsNodup hnd hd (hmemB c hc) hts

/-- Witness for Claim C6 at a concrete input: `A` and `B` have unique
timestamps and share exactly one timestamp (10), at which `B`'s row
(volume 7) differs from `A`'s (volume 0). -/
theorem merge_dedup_correct_witness :
    tsNodup [Candle.mk 0 1 1 1 1 0, Candle.mk 10 1 1 1 1 0]
    ∧ tsNodup [Candle.mk 10 2 2 2 2 7, Candle.mk 20 1 1 1 1 0]
    ∧ (merge_and_save_data (some [Candle.mk 0 1 1 1 1 0, Candle.mk 10 1 1 1 1 0])
        [Candle.mk 10 2 2 2 2 7, Candle.mk 20 1 1 1 1 0] false).length =
        2 + 2 - ([Candle.mk 0 1 1 1 1 0, Candle.mk 10 1 1 1 1 0].filter
          (fun c => hasTimestamp [Candle.mk 10 2 2 2 2 7, Candle.mk 20 1 1 1 1 0]
            c.timestamp)).length := by
  have h1 : tsNodup [Candle.mk 0 1 1 1 1 0, Candle.mk 10 1 1 1 1 0] := by
    simp [tsNodup]
  have h2 : tsNodup [Candle.mk 10 2 2 2 2 7, Candle.mk 20 1 1 1 1 0] := by
    simp [tsNodup]
  exact ⟨h1, h2, (merge_dedup_correct _ _ h1 h2).1⟩

/-- Claim C7: after every merge — the concatenate-dedup path for any
batch, and the replace path for any batch that went through the
fetcher's dedup-and-sort post-processing — the resulting series has
strictly increasing timestamps and no two rows with the same
timestamp. -/
theorem merge_sorted_invariant (S B raw : List Candle)
    (existing : Option (List Candle)) :
    List.Pairwise tsLT (merge_and_save_data (some S) B false)
    ∧ tsNodup (merge_and_save_data (some S) B false)
    ∧ List.Pairwise tsLT
        (merge_and_save_data existing (processFetchedCandles raw) true)
    ∧ tsNodup (merge_and_save_data existing (processFetchedCandles raw) true) := by
  refine ⟨?_, ?_, ?_, ?_⟩
  · rw [merge_concat_eq]
    exact pairwise_tsLT_processed _
  · rw [merge_concat_eq]
    exact tsNodup_of_pairwise_tsLT (pairwise_tsLT_processed _)
  · rw [merge_replace_eq]
    exact pairwise_tsLT_processed raw
  · rw [merge_replace_eq]
    exact tsNodup_of_pairwise_tsLT (pairwise_tsLT_processed raw)

/-! ### Staleness classifier, stored-file loading, and fetch start times -/

/-- One day in epoch milliseconds. -/
def msPerDay : Nat := 86400000

/-- `timedelta.days` of the duration from instant `a` to instant `b`
(epoch milliseconds): floor division by one day.  For the negative
durations possible when `b` precedes `a`, Python's floored `days` is
negative while truncated subtraction yields `0`; both sides fall the
same way in every `< threshold` comparison the classifier makes, so its
verdict is unchanged. -/
def daysBetween (a b : Nat) : Nat := (b - a) / msPerDay

/-- `df['timestamp'].min()`; used by the source only on non-empty
series. -/
def minTs : List Candle → Nat
  | [] => 0
  | c :: rest => rest.foldl (fun m d => min m d.timestamp) c.timestamp

/-- `df['timestamp'].max()`; used by the source only on non-empty
series (where the `0` base never wins, timestamps being `≥ 0`). -/
def maxTs (l : List Candle) : Nat :=
  l.foldl (fun m c => max m c.timestamp) 0

/-- The three states an asset's stored CSV can be in from
`load_existing_data`'s point of view: no file, a file whose read or
timestamp parse raises, or a readable file with rows. -/
inductive StoredFile where
  | absent
  | corrupt
  | valid (rows : List Candle)

/-- `HyperliquidOHLCPuller.load_existing_data` (lines 135-148): a
missing file and a file that fails to read or parse both yield `None`
(the exception is caught, logged, and swallowed). -/
def load_existing_data : StoredFile → Option (List Candle)
  | .absent => none
  | .corrupt => none
  | .valid rows => some rows

/-- `HyperliquidOHLCPuller.should_rebuild_data` (lines 156-182), with
the data already loaded: no data or empty data → rebuild; span below
250 days → rebuild; earliest data less than 300 days old → rebuild;
otherwise keep and update. -/
def should_rebuild_data (existing : Option (List Candle)) (now : Nat) :
    Bool :=
  match existing with
  | none => true
  | some existing_data =>
    if existing_data.length = 0 then true
    else
      let min_date := minTs existing_data
      let max_date := maxTs existing_data
      let date_range := daysBetween min_date max_date
      let days_from_today := daysBetween min_date now
      if date_range < 250 then true
      else if days_from_today < 300 then true
      else false

/-- `HISTORICAL_DAYS = 365` (line 24). -/
def HISTORICAL_DAYS : Nat := 365

/-- `HyperliquidOHLCPuller.get_latest_timestamp` (lines 150-154). -/
def get_latest_timestamp (existing : Option (List Candle)) : Option Nat :=
  match existing with
  | some l => if l.length > 0 then some (maxTs l) else none
  | none => none

/-- The fetch start chosen by the non-rebuild branch of
`update_single_asset` (lines 413-425): the stored series' latest
timestamp when one exists — `start_time = latest_timestamp`, the
boundary candle included — otherwise `now - 365 days`. -/
def update_start_time (existing : Option (List Candle)) (now : Nat) :
    Nat :=
  match get_latest_timestamp existing with
  | some t => t
  | none => now - HISTORICAL_DAYS * msPerDay

/-- `existing_df['timestamp'].iloc[-1]`: the last row's timestamp. -/
def lastRowTs (l : List Candle) : Nat :=
  match l.getLast? with
  | some c => c.timestamp
  | none => 0

/-- `HyperliquidDailyOHLC.calculate_time_range` (pull_daily_ohlc.py,
lines 103-110), in the branch where an existing file has rows: the
fetch start is the last row's timestamp plus one day. -/
def calculate_time_range_start (existing : List Candle) : Nat :=
  lastRowTs existing + msPerDay

/-- Stored series used in the classifier's span-200 instance: two rows
200 days apart. -/
def span200Series : List Candle :=
  [Candle.mk 0 1 1 1 1 0, Candle.mk (200 * msPerDay) 1 1 1 1 0]

/-- Stored series used in the classifier's span-300 instance: two rows
300 days apart. -/
def span300Series : List Candle :=
  [Candle.mk 0 1 1 1 1 0, Candle.mk (300 * msPerDay) 1 1 1 1 0]

/-- A stored series that the classifier marks `incremental-update` when
now = day 400: span 260 days, lookback 400 days. -/
def incSeries : List Candle :=
  [Candle.mk 0 1 1 1 1 0, Candle.mk (260 * msPerDay) 1 1 1 1 0]

/-! ### Claim C5: the staleness classifier -/

/-- Claim C5: the staleness classifier is exactly — no stored series or
empty series → rebuild-full; else span < 250 days → rebuild-full; else
lookback from now < 300 days → rebuild-full; else incremental-update.
In particular span 200 / lookback 400 rebuilds and span 300 /
lookback 400 updates incrementally. -/
theorem should_rebuild_data_spec :
    (∀ existing now, should_rebuild_data existing now = true ↔
      (existing = none ∨ ∃ data, existing = some data ∧
        (data = [] ∨ daysBetween (minTs data) (maxTs data) < 250 ∨
          daysBetween (minTs data) now < 300)))
    ∧ should_rebuild_data (some span200Series) (400 * msPerDay) = true
    ∧ should_rebuild_data (some span300Series) (400 * msPerDay) = false := by
  refine ⟨fun existing now => ?_, by decide, by decide⟩
  cases existing with
  | none => simp [should_rebuild_data]
  | some data =>
    simp only [should_rebuild_data, Option.some.injEq, reduceCtorEq,
      false_or]
    by_cases hd : data = []
    · subst hd
      simp
    · rw [if_neg (by simpa using hd)]
      by_cases h1 : daysBetween (minTs data) (maxTs data) < 250
      · simp [h1, hd]
      · by_cases h2 : daysBetween (minTs data) now < 300
        · simp [h1, h2, hd]
        · simp [h1, h2, hd]

/-! ### Claim C10: unreadable files behave like absent files -/

/-- Claim C10: a stored file that exists but fails to load or parse
yields the same result as an absent file (`None`); the staleness
classifier therefore returns rebuild-full, and the per-asset update
proceeds down the rebuild path rather than raising. -/
theorem load_corrupt_like_absent :
    load_existing_data StoredFile.corrupt = load_existing_data StoredFile.absent
    ∧ load_existing_data StoredFile.corrupt = none
    ∧ ∀ now, should_rebuild_data (load_existing_data StoredFile.corrupt) now
        = true :=
  ⟨rfl, rfl, fun _ => rfl⟩

/-! ### Claim C9: where the incremental fetch range starts -/

theorem foldl_max_le {l : List Candle} {a b : Nat} (ha : a ≤ b)
    (h : ∀ c ∈ l, c.timestamp ≤ b) :
    l.foldl (fun m c => max m c.timestamp) a ≤ b := by
  induction l generalizing a with
  | nil => simpa using ha
  | cons c rest ih =>
    simp only [List.foldl_cons]
    exact ih (max_le ha (h c (List.mem_cons_self _ _)))
      (fun d hd => h d (List.mem_cons_of_mem _ hd))

theorem maxTs_le {l : List Candle} {b : Nat}
    (h : ∀ c ∈ l, c.timestamp ≤ b) : maxTs l ≤ b :=
  foldl_max_le (Nat.zero_le b) h

theorem ts_le_lastRowTs {l : List Candle} (hs : List.Sorted tsLE l) :
    ∀ c ∈ l, c.timestamp ≤ lastRowTs l := by
  induction l with
  | nil =>
    intro c hc
    simp at hc
  | cons a rest ih =>
    intro c hc
    cases rest with
    | nil =>
      rcases List.mem_cons.mp hc with rfl | h
      · simp [lastRowTs]
      · simp at h
    | cons b rest' =>
      have hlast : lastRowTs (a :: b :: rest') = lastRowTs (b :: rest') := by
        simp [lastRowTs, List.getLast?_cons_cons]
      rw [hlast]
      obtain ⟨hrel, hs'⟩ := List.sorted_cons.mp hs
      rcases List.mem_cons.mp hc with rfl | h
      · exact le_trans (hrel b (List.mem_cons_self _ _))
          (ih hs' b (List.mem_cons_self _ _))
      · exact ih hs' c h

/-- Claim C9 counterexample: the concrete series `incSeries` is
classified incremental-update at day 400, yet the requested fetch range
starts exactly at — not strictly after — the latest stored timestamp:
the claim's strictness fails on the 30-minute variant. -/
theorem update_start_time_counterexample :
    should_rebuild_data (some incSeries) (400 * msPerDay) = false
    ∧ update_start_time (some incSeries) (400 * msPerDay) = maxTs incSeries
    ∧ ¬ maxTs incSeries <
        update_start_time (some incSeries) (400 * msPerDay) :=
  ⟨by decide, by decide, by decide⟩

/-- Claim C9 (amended): for a non-empty stored series, the 30-minute
variant's incremental fetch range starts exactly at the stored maximum
timestamp (the boundary candle is refetched and collapsed by the later
dedup), while the daily variant starts one day after the last stored
row — strictly after the maximum timestamp of a sorted series. -/
theorem incremental_start_times (S : List Candle) (hS : S ≠ [])
    (hsorted : List.Sorted tsLE S) (now : Nat) :
    update_start_time (some S) now = maxTs S
    ∧ maxTs S < calculate_time_range_start S := by
  constructor
  · have hlen : S.length > 0 := List.length_pos.mpr hS
    simp [update_start_time, get_latest_timestamp, hlen]
  · have h1 : maxTs S ≤ lastRowTs S := maxTs_le (ts_le_lastRowTs hsorted)
    show maxTs S < lastRowTs S + msPerDay
    have h2 : (0:Nat) < msPerDay := by decide
    omega

/-- Witness for the amended Claim C9 at the concrete incremental
series. -/
theorem incremental_start_times_witness :
    update_start_time (some incSeries) (400 * msPerDay) = maxTs incSeries
    ∧ maxTs incSeries < calculate_time_range_start incSeries :=
  incremental_start_times incSeries (by decide) (by decide) (400 * msPerDay)

/-! ### Provider interaction: chunk requests, the chunk loop, and
per-asset outcomes -/

/-- Result of `fetch_candle_data_chunk` (lines 184-215): a candle list
on HTTP 200 (empty when the provider returned no data or a non-list
body), or `None` — modelled as `err` — on a non-2xx status or a raised
exception. -/
inductive ChunkResult where
  | ok (candles : List Candle)
  | err
deriving DecidableEq

/-- `fetch_candle_data` (lines 217-345) on its single-request path
(lines 276-290), with candle parsing abstracted so that each returned
provider candle becomes one row: a transport error propagates as `none`
(lines 283-284) and — collapsed onto the same sentinel — an empty
candle list also returns `none` (lines 288-290); a non-empty list is
deduplicated and sorted (lines 328-331). -/
def fetch_candle_data_single (chunk : ChunkResult) :
    Option (List Candle) :=
  match chunk with
  | .err => none
  | .ok candles =>
    if candles.isEmpty then none
    else some (sortByTimestamp (dropDuplicatesKeepLast candles))

/-- `chunk_days = 45` (line 242). -/
def chunk_days : Nat := 45

/-- The chunk windows walked by the chunked fetch loop (lines 247-268):
starting at `s`, each window ends at `min (start + 45 days) e` and the
next window starts where the previous one ended, until the start
reaches `e`.  Units are days, matching `timedelta(days=45)`. -/
def chunkWindows (s e : Nat) : List (Nat × Nat) :=
  if s < e then
    (s, min (s + chunk_days) e) :: chunkWindows (min (s + chunk_days) e) e
  else []
termination_by e - s
decreasing_by
  simp only [chunk_days]
  omega

/-- The chunked fetch loop of `fetch_candle_data` (lines 241-273), the
per-window request abstracted as `provider start end`.  On a failed
window the loop `break`s (line 260) — candles gathered by earlier
windows are kept, later windows are never requested. -/
def fetchChunks (provider : Nat → Nat → ChunkResult) (s e : Nat) :
    List Candle :=
  if s < e then
    match provider s (min (s + chunk_days) e) with
    | .err => []
    | .ok cs => cs ++ fetchChunks provider (min (s + chunk_days) e) e
  else []
termination_by e - s
decreasing_by
  simp only [chunk_days]
  omega

/-- `fetch_candle_data` on its chunked path (lines 237-274 followed by
288-340): run the chunk loop, return `None` when nothing was gathered
(lines 288-290), otherwise dedup-and-sort the concatenation (lines
328-331). -/
def fetch_candle_data_chunked (provider : Nat → Nat → ChunkResult)
    (s e : Nat) : Option (List Candle) :=
  let candles := fetchChunks provider s e
  if candles.isEmpty then none
  else some (sortByTimestamp (dropDuplicatesKeepLast candles))

/-- The per-asset outcome `update_single_asset` reports for a given
fetch result — the control flow is the same in its rebuild branch
(lines 400-412) and its incremental branch (lines 428-440): `True`
(success) iff the fetch produced a non-empty batch; saving, which only
fails on I/O errors, is modelled as succeeding.  `update_all_assets`
adds every `False` return to `fail_count` (lines 464-467). -/
def update_fetch_outcome (fetched : Option (List Candle)) : Bool :=
  match fetched with
  | some new_data => if new_data.length > 0 then true else false
  | none => false

/-- Result of the provider catalog call `self.info.meta()` inside
`get_available_symbols` (lines 82-120): a universe of instrument names,
or a failure — a raised exception or a response without a `universe`
key, which the code handles identically. -/
inductive MetaResult where
  | ok (names : List String)
  | err

/-- `get_hyperliquid_symbol` with `HYPERLIQUID_SYMBOL_MAP` (lines
41-51). -/
def get_hyperliquid_symbol (asset : String) : String :=
  if asset = "PEPE" then "kPEPE"
  else if asset = "SHIB" then "kSHIB"
  else if asset = "FLOKI" then "kFLOKI"
  else if asset = "BONK" then "kBONK"
  else asset

/-- The `available_symbols` state after `get_available_symbols` (lines
82-120): the universe's names on success; on failure or a malformed
response the EMPTY set — `self.available_symbols = set()` (lines 115
and 120) — not `None`. -/
def get_available_symbols (meta : MetaResult) : Option (List String) :=
  match meta with
  | .ok names => some names
  | .err => some []

/-- `is_symbol_available` (lines 122-128): `True` when the symbol set
was never populated (`None`), otherwise membership of the mapped
symbol. -/
def is_symbol_available (available_symbols : Option (List String))
    (asset : String) : Bool :=
  match available_symbols with
  | none => true
  | some syms => syms.contains (get_hyperliquid_symbol asset)

/-! ### Claim C2: empty provider responses vs transport errors -/

/-- Claim C2 counterexample: an asset whose provider request succeeds
with a zero-length candle list gets `None` back from the fetch — the
very sentinel a transport/HTTP error produces — and the per-asset
update returns `False`, which `update_all_assets` adds to `fail_count`:
the empty-success outcome is identical to the error outcome, not
distinguished, and the asset IS counted as failed. -/
theorem empty_result_counterexample :
    fetch_candle_data_single (ChunkResult.ok []) = none
    ∧ update_fetch_outcome (fetch_candle_data_single (ChunkResult.ok []))
        = false
    ∧ fetch_candle_data_single (ChunkResult.ok [])
        = fetch_candle_data_single ChunkResult.err :=
  ⟨rfl, rfl, rfl⟩

/-- Claim C2 (amended): the per-asset update fails exactly when the
provider request errs or returns an empty candle list — an empty
success is collapsed onto the error sentinel `None` inside
`fetch_candle_data` and the asset is counted failed either way; only
the log messages differ. -/
theorem empty_result_amended (r : ChunkResult) :
    update_fetch_outcome (fetch_candle_data_single r) = false ↔
      (r = ChunkResult.err ∨ r = ChunkResult.ok []) := by
  cases r with
  | err => simp [fetch_candle_data_single, update_fetch_outcome]
  | ok cs =>
    cases cs with
    | nil => simp [fetch_candle_data_single, update_fetch_outcome]
    | cons c rest =>
      have hne : sortByTimestamp (dropDuplicatesKeepLast (c :: rest)) ≠ [] :=
        processed_ne_nil (List.cons_ne_nil _ _)
      have hlen : 0 <
          (sortByTimestamp (dropDuplicatesKeepLast (c :: rest))).length :=
        List.length_pos.mpr hne
      simp [fetch_candle_data_single, update_fetch_outcome, hlen]

/-! ### Claim C3: availability after a failed catalog fetch -/

/-- Claim C3 (code-bug evaluation): after a failed catalog fetch the
puller stores the EMPTY set rather than `None`, so
`is_symbol_available` — whose own inline comment reads "If we couldn't
get the list, assume it's available" — returns `False` for every asset:
the availability check fails closed, every asset is skipped by
`update_single_asset` and counted as failed, contradicting both the
comment and the specified fail-open policy. -/
theorem availability_fail_closed (asset : String) :
    is_symbol_available (get_available_symbols MetaResult.err) asset = false
    ∧ is_symbol_available none asset = true :=
  ⟨rfl, rfl⟩

/-! ### Claim C8: chunk windows cover the range exactly -/

theorem chunkWindows_mem_bound (s e : Nat) :
    ∀ w ∈ chunkWindows s e,
      s ≤ w.1 ∧ w.1 < w.2 ∧ w.2 ≤ e ∧ w.2 - w.1 ≤ chunk_days := by
  induction s, e using chunkWindows.induct with
  | case1 s e h ih =>
    rw [chunkWindows, if_pos h]
    intro w hw
    rcases List.mem_cons.mp hw with rfl | hw'
    · simp only [chunk_days] at *
      refine ⟨le_refl _, ?_, ?_, ?_⟩ <;> omega
    · obtain ⟨h1, h2, h3, h4⟩ := ih w hw'
      have hs : s ≤ min (s + chunk_days) e := by
        simp only [chunk_days]
        omega
      exact ⟨le_trans hs h1, h2, h3, h4⟩
  | case2 s e h =>
    rw [chunkWindows, if_neg h]
    intro w hw
    simp at hw

theorem chunkWindows_coverage (s e t : Nat) :
    (∃ w ∈ chunkWindows s e, w.1 ≤ t ∧ t < w.2) ↔ (s ≤ t ∧ t < e) := by
  induction s, e using chunkWindows.induct with
  | case1 s e h ih =>
    rw [chunkWindows, if_pos h]
    rw [List.exists_mem_cons_iff]
    rw [ih]
    simp only [chunk_days] at *
    omega
  | case2 s e h =>
    rw [chunkWindows, if_neg h]
    simp only [List.not_mem_nil, false_and, exists_false, false_iff,
      not_and, Nat.not_lt]
    omega

theorem chunkWindows_chain (s e : Nat) :
    List.Chain' (fun w₁ w₂ : Nat × Nat => w₁.2 = w₂.1) (chunkWindows s e) := by
  induction s, e using chunkWindows.induct with
  | case1 s e h ih =>
    rw [chunkWindows, if_pos h]
    rw [List.chain'_cons']
    refine ⟨?_, ih⟩
    intro w hw
    by_cases hm : min (s + chunk_days) e < e
    · rw [chunkWindows, if_pos hm] at hw
      simp only [List.head?_cons, Option.mem_def, Option.some.injEq] at hw
      rw [← hw]
    · rw [chunkWindows, if_neg hm] at hw
      simp at hw
  | case2 s e h =>
    rw [chunkWindows, if_neg h]
    exact List.chain'_nil

theorem chunkWindows_disjoint (s e : Nat) :
    List.Pairwise (fun w₁ w₂ : Nat × Nat => w₁.2 ≤ w₂.1)
      (chunkWindows s e) := by
  induction s, e using chunkWindows.induct with
  | case1 s e h ih =>
    rw [chunkWindows, if_pos h]
    refine List.Pairwise.cons ?_ ih
    intro w hw
    exact (chunkWindows_mem_bound _ _ w hw).1
  | case2 s e h =>
    rw [chunkWindows, if_neg h]
    exact List.Pairwise.nil

theorem chunkWindows_example :
    chunkWindows 0 100 = [(0, 45), (45, 90), (90, 100)] := by
  have h3 : chunkWindows 100 100 = [] := by
    rw [chunkWindows]
    norm_num
  have h2 : chunkWindows 90 100 = [(90, 100)] := by
    rw [chunkWindows]
    norm_num [chunk_days, Nat.min_def, h3]
  have h1 : chunkWindows 45 100 = [(45, 90), (90, 100)] := by
    rw [chunkWindows]
    norm_num [chunk_days, Nat.min_def, h2]
  rw [chunkWindows]
  norm_num [chunk_days, Nat.min_def, h1]

/-- Claim C8: for every range `[s, e)` with `s < e`, the chunked
fetcher's windows are consecutive half-open windows of at most 45 days
each, pairwise disjoint, whose union is exactly `[s, e)`; in
particular `[0, 100)` yields `[0,45), [45,90), [90,100)`. -/
theorem chunk_windows_cover (s e : Nat) (_hse : s < e) :
    (∀ w ∈ chunkWindows s e, w.1 < w.2 ∧ w.2 - w.1 ≤ chunk_days)
    ∧ List.Chain' (fun w₁ w₂ : Nat × Nat => w₁.2 = w₂.1) (chunkWindows s e)
    ∧ List.Pairwise (fun w₁ w₂ : Nat × Nat => w₁.2 ≤ w₂.1) (chunkWindows s e)
    ∧ (∀ t, (∃ w ∈ chunkWindows s e, w.1 ≤ t ∧ t < w.2) ↔ (s ≤ t ∧ t < e))
    ∧ chunkWindows 0 100 = [(0, 45), (45, 90), (90, 100)] := by
  refine ⟨?_, chunkWindows_chain s e, chunkWindows_disjoint s e,
    fun t => chunkWindows_coverage s e t, chunkWindows_example⟩
  intro w hw
  obtain ⟨-, h2, -, h4⟩ := chunkWindows_mem_bound s e w hw
  exact ⟨h2, h4⟩

/-- Witness for Claim C8 at the concrete range of the spec's example. -/
theorem chunk_windows_cover_witness :
    (0 : Nat) < 100
    ∧ chunkWindows 0 100 = [(0, 45), (45, 90), (90, 100)] :=
  ⟨by decide, (chunk_windows_cover 0 100 (by decide)).2.2.2.2⟩

/-! ### Claim C4: what happens to already-fetched chunks on a failure -/

theorem isEmpty_false_of_ne_nil {l : List Candle} (h : l ≠ []) :
    l.isEmpty = false := by
  cases l with
  | nil => exact absurd rfl h
  | cons a t => rfl

/-- A provider whose first chunk request (start 0) succeeds with one
candle and whose every later chunk request fails. -/
def failAfterFirstChunk : Nat → Nat → ChunkResult :=
  fun s _ =>
    if s = 0 then ChunkResult.ok [Candle.mk 5 1 1 1 1 0]
    else ChunkResult.err

/-- Claim C4 counterexample: fetching `[0, 100)` in 45-day chunks from
a provider whose first window succeeds and whose second window fails
returns the first window's candles instead of discarding them (`break`
at line 260 keeps `all_candles`), and the per-asset update counts the
asset as a SUCCESS — the partial range is returned and persisted, not
aborted all-or-nothing, and the asset is not counted as failed. -/
theorem chunk_break_counterexample :
    fetch_candle_data_chunked failAfterFirstChunk 0 100
      = some [Candle.mk 5 1 1 1 1 0]
    ∧ update_fetch_outcome
        (fetch_candle_data_chunked failAfterFirstChunk 0 100) = true := by
  have hloop : fetchChunks failAfterFirstChunk 0 100
      = [Candle.mk 5 1 1 1 1 0] := by
    rw [fetchChunks]
    norm_num [chunk_days, Nat.min_def, failAfterFirstChunk]
    rw [fetchChunks]
    norm_num [chunk_days, Nat.min_def, failAfterFirstChunk]
  constructor
  · simp only [fetch_candle_data_chunked, hloop]
    decide
  · simp only [fetch_candle_data_chunked, hloop]
    decide

/-- The candles one window's request contributed: the returned list on
success, nothing on failure.  (Used to state what the loop gathered
from the windows hypothesized to succeed.) -/
def gatheredCandles (provider : Nat → Nat → ChunkResult)
    (w : Nat × Nat) : List Candle :=
  match provider w.1 w.2 with
  | .ok cs => cs
  | .err => []

/-- The chunked fetch loop once more (lines 247-268), this time
recording the window of every request it issues (line 256), in order:
the loop issues exactly one request per iteration, and after a failed
request it breaks, so no later window is ever requested. -/
def fetchChunksRequested (provider : Nat → Nat → ChunkResult)
    (s e : Nat) : List (Nat × Nat) :=
  if s < e then
    (s, min (s + chunk_days) e) ::
      (match provider s (min (s + chunk_days) e) with
        | .err => []
        | .ok _ => fetchChunksRequested provider (min (s + chunk_days) e) e)
  else []
termination_by e - s
decreasing_by
  simp only [chunk_days]
  omega

theorem chunkWindows_cons {s e : Nat} {w : Nat × Nat}
    {ws : List (Nat × Nat)} (h : chunkWindows s e = w :: ws) :
    s < e ∧ w = (s, min (s + chunk_days) e) ∧
      ws = chunkWindows (min (s + chunk_days) e) e := by
  by_cases hse : s < e
  · rw [chunkWindows, if_pos hse] at h
    injection h with h1 h2
    exact ⟨hse, h1.symm, h2.symm⟩
  · rw [chunkWindows, if_neg hse] at h
    exact absurd h (by simp)

/-- Structure of the chunk loop around the first failing window: it
gathers exactly the candles of the succeeding windows before the
failure, and it requests exactly those windows plus the failing one. -/
theorem fetchChunks_break (provider : Nat → Nat → ChunkResult)
    (okWs : List (Nat × Nat)) :
    ∀ (s e : Nat) (wf : Nat × Nat) (rest : List (Nat × Nat)),
      chunkWindows s e = okWs ++ wf :: rest →
      (∀ w ∈ okWs, ∃ cs, provider w.1 w.2 = ChunkResult.ok cs) →
      provider wf.1 wf.2 = ChunkResult.err →
      fetchChunks provider s e = okWs.flatMap (gatheredCandles provider)
      ∧ fetchChunksRequested provider s e = okWs ++ [wf] := by
  induction okWs with
  | nil =>
    intro s e wf rest hsplit hok herr
    rw [List.nil_append] at hsplit
    obtain ⟨hse, hw, -⟩ := chunkWindows_cons hsplit
    have herr' : provider s (min (s + chunk_days) e) = ChunkResult.err := by
      rw [hw] at herr
      exact herr
    constructor
    · rw [fetchChunks, if_pos hse, herr']
      rfl
    · rw [fetchChunksRequested, if_pos hse, herr', hw]
      rfl
  | cons w0 okWs' ih =>
    intro s e wf rest hsplit hok herr
    rw [List.cons_append] at hsplit
    obtain ⟨hse, hw0, hws⟩ := chunkWindows_cons hsplit
    obtain ⟨cs0, hcs0⟩ := hok w0 (List.mem_cons_self _ _)
    have hok' : ∀ w ∈ okWs', ∃ cs, provider w.1 w.2 = ChunkResult.ok cs :=
      fun w hw => hok w (List.mem_cons_of_mem _ hw)
    obtain ⟨ih1, ih2⟩ := ih (min (s + chunk_days) e) e wf rest hws.symm hok' herr
    have hcs0' : provider s (min (s + chunk_days) e) = ChunkResult.ok cs0 := by
      rw [hw0] at hcs0
      exact hcs0
    constructor
    · rw [fetchChunks, if_pos hse, hcs0']
      show cs0 ++ fetchChunks provider (min (s + chunk_days) e) e = _
      rw [ih1, List.flatMap_cons]
      have hg : gatheredCandles provider w0 = cs0 := by
        simp [gatheredCandles, hcs0]
      rw [hg]
    · rw [fetchChunksRequested, if_pos hse, hcs0']
      show (s, min (s + chunk_days) e) ::
          fetchChunksRequested provider (min (s + chunk_days) e) e = _
      rw [ih2, hw0]
      rfl

/-- Claim C4 (amended): if a chunk request fails after the earlier
chunks succeeded, the loop breaks at the failing window: the windows
after it are never requested, and the candles already gathered are
KEPT, not discarded — the fetch processes and returns them, returning
`None` only when no chunk before the failure produced any candle, and
the per-asset update reports success exactly when something was
gathered (so the partial range is persisted and the asset is not
counted as failed). -/
theorem chunk_break_keeps_fetched (provider : Nat → Nat → ChunkResult)
    (s e : Nat) (okWs : List (Nat × Nat)) (wf : Nat × Nat)
    (rest : List (Nat × Nat))
    (hsplit : chunkWindows s e = okWs ++ wf :: rest)
    (hok : ∀ w ∈ okWs, ∃ cs, provider w.1 w.2 = ChunkResult.ok cs)
    (herr : provider wf.1 wf.2 = ChunkResult.err) :
    fetchChunks provider s e = okWs.flatMap (gatheredCandles provider)
    ∧ fetchChunksRequested provider s e = okWs ++ [wf]
    ∧ fetch_candle_data_chunked provider s e =
        (if (okWs.flatMap (gatheredCandles provider)).isEmpty then none
          else some (sortByTimestamp (dropDuplicatesKeepLast
            (okWs.flatMap (gatheredCandles provider)))))
    ∧ update_fetch_outcome (fetch_candle_data_chunked provider s e) =
        !(okWs.flatMap (gatheredCandles provider)).isEmpty := by
  obtain ⟨h1, h2⟩ := fetchChunks_break provider okWs s e wf rest hsplit hok herr
  refine ⟨h1, h2, ?_, ?_⟩
  · simp only [fetch_candle_data_chunked, h1]
  · simp only [fetch_candle_data_chunked, h1]
    cases hempty : (okWs.flatMap (gatheredCandles provider)).isEmpty with
    | true => simp [hempty, update_fetch_outcome]
    | false =>
      have hne : okWs.flatMap (gatheredCandles provider) ≠ [] := by
        intro hnil
        rw [hnil] at hempty
        simp at hempty
      have hlen : 0 < (sortByTimestamp (dropDuplicatesKeepLast
          (okWs.flatMap (gatheredCandles provider)))).length :=
        List.length_pos.mpr (processed_ne_nil hne)
      simp [hempty, update_fetch_outcome, hlen]

/-- A provider whose first two chunk requests (starts 0 and 45)
succeed, each with one candle, and whose every later request fails. -/
def failAtThirdChunk : Nat → Nat → ChunkResult :=
  fun s _ =>
    if s = 0 then ChunkResult.ok [Candle.mk 5 1 1 1 1 0]
    else if s = 45 then ChunkResult.ok [Candle.mk 50 1 1 1 1 0]
    else ChunkResult.err

/-- Witness for the amended Claim C4: on `[0, 100)` with the provider
failing at the third window, the loop keeps the two chunks gathered
before the failure, requests exactly the first three windows and no
more, and the update reports success. -/
theorem chunk_break_keeps_fetched_witness :
    fetchChunks failAtThirdChunk 0 100 =
      ([(0, 45), (45, 90)] : List (Nat × Nat)).flatMap
        (gatheredCandles failAtThirdChunk)
    ∧ fetchChunksRequested failAtThirdChunk 0 100
        = [(0, 45), (45, 90), (90, 100)]
    ∧ update_fetch_outcome
        (fetch_candle_data_chunked failAtThirdChunk 0 100) = true := by
  have h := chunk_break_keeps_fetched failAtThirdChunk 0 100
    [(0, 45), (45, 90)] (90, 100) []
    (by rw [chunkWindows_example]; rfl)
    (by
      intro w hw
      rcases List.mem_cons.mp hw with rfl | hw'
      · exact ⟨[Candle.mk 5 1 1 1 1 0], rfl⟩
      · rcases List.mem_cons.mp hw' with rfl | hw''
        · exact ⟨[Candle.mk 50 1 1 1 1 0], rfl⟩
        · simp at hw'')
    (by decide)
  exact ⟨h.1, h.2.1, h.2.2.2.trans (by decide)⟩

end HLPuller
